import Mathlib

/-!
Shallow embedding of the notification digest pipeline of the
client-dashboard repository (Firebase functions file: `enqueue`,
`queueOnNewComment`, `queueOnProjectStatusChange`, `getPrefs`,
`sendEmailDigests` with its claim query, `latestByKey` dedupe map,
no-address skip path, rate-limit suppression path and finalize path).

Timestamps are modelled as `Nat` milliseconds (`Int` where JS subtraction
occurs), Firestore documents as Lean structures, and optional / possibly
`undefined` JS fields as `Option`.  JS truthiness of strings (empty string
is falsy) is modelled explicitly.
-/

namespace ClientDashboard

/-- The event kind written by `enqueue`: the TS union `"comment" | "status"`.
The digest loop additionally drops any other `type` value before grouping,
so this closed inductive is the exact domain of the pipeline. -/
inductive NType where
  | comment
  | status
deriving DecidableEq, Repr

/-- Kind-specific payload written by the two queue triggers:
`{author, text}` for a comment, `{title, from, to}` for a status change. -/
inductive Payload where
  | comment (author text : String)
  | status (title sFrom sTo : String)
deriving DecidableEq, Repr

/-- One document of the `notification_events` collection.  `processing` is
the claim flag (the spec calls it `claimed`); `skipped` is the annotation
written on the no-address path; `id` is the Firestore document id. -/
structure Ev where
  id : Nat
  uid : String
  type : NType
  projectId : String
  payload : Payload
  createdAt : Nat
  processed : Bool
  processing : Bool
  skipped : Option String
deriving DecidableEq, Repr

/-- JS `a || b` for an optional string field: `undefined` and `""` are falsy. -/
def jsOr (o : Option String) (dflt : String) : String :=
  match o with
  | some s => if s = "" then dflt else s
  | none => dflt

/-- JS `a || b` for a plain string: `""` is falsy. -/
def jsOrS (s dflt : String) : String :=
  if s = "" then dflt else s

/-- JS truthiness of a `string | undefined` value. -/
def jsTruthy (o : Option String) : Bool :=
  match o with
  | some s => !(s == "")
  | none => false

/-- `enqueue(uid, type, projectId, payload)`: the new queue document is
created with `processed: false` and `processing: false`. -/
def enqueue (id : Nat) (uid : String) (type : NType) (projectId : String)
    (payload : Payload) (now : Nat) : Ev :=
  { id := id, uid := uid, type := type, projectId := projectId,
    payload := payload, createdAt := now,
    processed := false, processing := false, skipped := none }

/-- The digest mode union `"immediate" | "digest-15m"`. -/
inductive DigestMode where
  | immediate
  | digest15m
deriving DecidableEq, Repr

/-- The stored `notificationPrefs.email` document: every field may be absent. -/
structure PrefsEmail where
  onComment : Option Bool
  onStatusChange : Option Bool
  mode : Option DigestMode
deriving DecidableEq, Repr

/-- The resolved preferences returned by `getPrefs`. -/
structure ResolvedPrefs where
  onComment : Bool
  onStatusChange : Bool
  mode : DigestMode
deriving DecidableEq, Repr

/-- `getPrefs(uid)`: reads `notificationPrefs.email` (absent document or
absent field yields `{}`) and fills each field with its default
(`?? true`, `?? true`, `?? "digest-15m"`). -/
def getPrefs (stored : Option PrefsEmail) : ResolvedPrefs :=
  let prefs := stored.getD { onComment := none, onStatusChange := none, mode := none }
  { onComment := prefs.onComment.getD true,
    onStatusChange := prefs.onStatusChange.getD true,
    mode := prefs.mode.getD .digest15m }

/-- `queueOnNewComment`: gated first by `prefs.onComment`, then by
`authorUid && authorUid === uid` (owner commenting on their own project),
then enqueues a comment event with defaulted payload fields.  Returns the
enqueued document, or `none` when nothing is written. -/
def queueOnNewComment (uid projectId : String) (stored : Option PrefsEmail)
    (authorUid author text : Option String) (id now : Nat) : Option Ev :=
  let prefs := getPrefs stored
  if !prefs.onComment then none
  else if jsTruthy authorUid && (authorUid == some uid) then none
  else some (enqueue id uid .comment projectId
    (.comment (jsOr author "Someone") (jsOr text "")) now)

/-- The fields of a project document read by the status-change trigger. -/
structure ProjectDoc where
  title : Option String
  status : Option String
  updatedBy : Option String
deriving DecidableEq, Repr

/-- `queueOnProjectStatusChange`: returns early when the status did not
change, then is gated by `prefs.onStatusChange`, then by
`updatedBy && updatedBy === uid`, then enqueues a status event.
The handler only runs when both `before` and `after` snapshots exist,
which is why they are plain arguments here. -/
def queueOnProjectStatusChange (uid projectId : String) (stored : Option PrefsEmail)
    (before after : ProjectDoc) (id now : Nat) : Option Ev :=
  if before.status == after.status then none
  else
    let prefs := getPrefs stored
    if !prefs.onStatusChange then none
    else if jsTruthy after.updatedBy && (after.updatedBy == some uid) then none
    else some (enqueue id uid .status projectId
      (.status (jsOr after.title projectId) (jsOr before.status "") (jsOr after.status "")) now)

/-- The claim query predicate of `sendEmailDigests`:
`processed == false AND processing == false AND createdAt <= cutoff`. -/
def pendingEligible (cutoff : Nat) (e : Ev) : Bool :=
  !e.processed && !e.processing && decide (e.createdAt ≤ cutoff)

/-- The `orderBy("createdAt", "asc")` comparison. -/
def byCreatedAt (a b : Ev) : Bool :=
  decide (a.createdAt ≤ b.createdAt)

/-- The cutoff timestamp `Date.now() - 2 * 60 * 1000` (ignore events
younger than two minutes). -/
def digestCutoff (nowMs : Nat) : Nat :=
  nowMs - 2 * 60 * 1000

/-- The selection of the claim query: pending eligible events in ascending
`createdAt` order, limited to the batch size 500. -/
def claimSelection (store : List Ev) (cutoff : Nat) : List Ev :=
  ((store.filter (pendingEligible cutoff)).mergeSort byCreatedAt).take 500

/-- The claim batch commit: a blind `update(ref, { processing: true })` on
every selected document id.  A Firestore batch write carries no field
precondition, so this applies unconditionally to each listed id. -/
def applyClaim (store : List Ev) (ids : List Nat) : List Ev :=
  store.map (fun e => if e.id ∈ ids then { e with processing := true } else e)

/-- One full claim step: run the query, then commit the batch update.
Returns the selection together with the updated store; an empty selection
just returns the unchanged store (the scheduler returns normally). -/
def claimBatch (store : List Ev) (cutoff : Nat) : List Ev × List Ev :=
  let sel := claimSelection store cutoff
  (sel, applyClaim store (sel.map (·.id)))

/-- The dedupe key of the digest: the source keys its `Map` by the string
`type + ":" + projectId`; since `type` is one of `"comment"`/`"status"`
(neither contains a colon), that string key is in bijection with this pair. -/
def eventKey (e : Ev) : NType × String :=
  (e.type, e.projectId)

/-- `Map.set` on an insertion-ordered map modelled as a list: replace the
entry with the given key in place, or append when the key is absent. -/
def mapSet (m : List Ev) (k : NType × String) (d : Ev) : List Ev :=
  match m with
  | [] => [d]
  | p :: rest => if eventKey p = k then d :: rest else p :: mapSet rest k d

/-- One iteration of the collapse loop: look up the previous entry for the
key of `d`; absent keys are inserted, and an existing entry is replaced
exactly when `d.createdAt >= prev.createdAt` (so a later event wins ties). -/
def latestStep (m : List Ev) (d : Ev) : List Ev :=
  match m.find? (fun p => eventKey p == eventKey d) with
  | none => m ++ [d]
  | some prev => if prev.createdAt ≤ d.createdAt then mapSet m (eventKey d) d else m

/-- `latestByKey`: collapse a recipient's claimed docs to the latest event
per `(type, projectId)` key, in first-insertion order
(`Array.from(map.values())`). -/
def latestByKey (docs : List Ev) : List Ev :=
  docs.foldl latestStep []

/-- One plain-text digest line (`linesText` entry) for a deduplicated event. -/
def renderTextLine (projectTitle : String) (e : Ev) : String :=
  match e.payload with
  | .comment author text =>
      "• " ++ projectTitle ++ " — " ++ jsOrS author "Someone" ++
        " commented: \"" ++ text ++ "\""
  | .status _ sFrom sTo =>
      "• " ++ projectTitle ++ " — Status: " ++ sFrom ++ " → " ++ sTo

/-- The text lines of one digest: one line per deduplicated event, with the
project title resolved as `(projSnap.title if it exists else "") || projectId`. -/
def digestTextLines (titles : String → Option String) (finalDocs : List Ev) : List String :=
  finalDocs.map (fun e => renderTextLine (jsOrS ((titles e.projectId).getD "") e.projectId) e)

/-- The minimum inter-send interval: `10 * 60 * 1000` milliseconds. -/
def minIntervalMs : Int := 10 * 60 * 1000

/-- The rate-limit test `lastSentAt && nowMs - lastSentAt.toMillis() < 10 * 60 * 1000`. -/
def rateLimited (lastSentAt : Option Int) (nowMs : Int) : Bool :=
  match lastSentAt with
  | some t => decide (nowMs - t < minIntervalMs)
  | none => false

/-- Outcome of the per-recipient loop body: message handed to the transport,
suppressed by the rate limit, or skipped for lack of an address. -/
inductive Outcome where
  | sent
  | suppressed
  | skippedNoEmail
deriving DecidableEq, Repr

/-- Result of the per-recipient loop body: the updated batch documents, the
outcome, and the updated `lastSentAt` meta value. -/
structure UserRun where
  docs : List Ev
  outcome : Outcome
  lastSentAt : Option Int
deriving DecidableEq, Repr

/-- The per-recipient body of `sendEmailDigests` (transport call assumed to
succeed; a transport failure throws out of the loop before any finalize
write).  `!email` uses JS truthiness, so an empty-string address is also
treated as missing.  On the no-address path every batch doc is finalized
with the skip annotation; on the suppressed path only the deduplicated
`finalDocs` are released; on the success path only the deduplicated
`finalDocs` are finalized and `lastSentAt` is set to the run time. -/
def processUser (docs : List Ev) (email : Option String)
    (lastSentAt : Option Int) (nowMs : Int) : UserRun :=
  if !(jsTruthy email) then
    { docs := docs.map (fun d =>
        { d with processed := true, processing := false, skipped := some "no-email" }),
      outcome := .skippedNoEmail, lastSentAt := lastSentAt }
  else
    let finalDocs := latestByKey docs
    let finalIds := finalDocs.map (·.id)
    if rateLimited lastSentAt nowMs then
      { docs := docs.map (fun d =>
          if d.id ∈ finalIds then { d with processing := false } else d),
        outcome := .suppressed, lastSentAt := lastSentAt }
    else
      { docs := docs.map (fun d =>
          if d.id ∈ finalIds then { d with processed := true, processing := false } else d),
        outcome := .sent, lastSentAt := some nowMs }

/-- The pipeline operations on the shared `notification_events` store:
enqueue a fresh event, run a claim step, release docs (the suppression
path), finalize docs after a successful send, or finalize docs with a skip
annotation (the no-address path).  The release and finalize commits are
blind `userBatch.update` calls on the listed document ids: a Firestore
batch update carries no field precondition — the `processing === true`
check happens once at reload time, not at commit time — so the updates
apply to the listed ids unconditionally. -/
inductive PipeStep : List Ev → List Ev → Prop where
  | stepEnqueue (s : List Ev) (id : Nat) (uid : String) (type : NType)
      (projectId : String) (payload : Payload) (now : Nat) :
      PipeStep s (s ++ [enqueue id uid type projectId payload now])
  | stepClaim (s : List Ev) (cutoff : Nat) :
      PipeStep s (claimBatch s cutoff).2
  | stepRelease (s : List Ev) (ids : List Nat) :
      PipeStep s (s.map (fun e =>
        if e.id ∈ ids then { e with processing := false } else e))
  | stepFinalizeSend (s : List Ev) (ids : List Nat) :
      PipeStep s (s.map (fun e =>
        if e.id ∈ ids then { e with processed := true, processing := false } else e))
  | stepFinalizeSkip (s : List Ev) (ids : List Nat) (tag : String) :
      PipeStep s (s.map (fun e =>
        if e.id ∈ ids then
          { e with processed := true, processing := false, skipped := some tag } else e))

/-- Outcome of the overlapping-claim schedule: the store after both batch
commits, and the document ids each invocation believes it claimed. -/
structure RaceOutcome where
  finalStore : List Ev
  claimedA : List Nat
  claimedB : List Nat
deriving DecidableEq, Repr

/-- Two overlapping `sendEmailDigests` invocations racing through the claim
step: A runs the claim query, B runs the same query before A's batch
commits (a batch write is atomic but carries no precondition, so neither
commit fails), then both commits land. -/
def overlappingClaims (store : List Ev) (cutoff : Nat) : RaceOutcome :=
  let selA := (claimSelection store cutoff).map (·.id)
  let selB := (claimSelection store cutoff).map (·.id)
  let s1 := applyClaim store selA
  let s2 := applyClaim s1 selB
  { finalStore := s2, claimedA := selA, claimedB := selB }

/-- The reload check of one invocation (lines after `db.getAll`): of the ids
it claimed, keep the documents that still show `processed = false` and
`processing = true`; these are the events the invocation proceeds to send. -/
def reloadedBatch (store : List Ev) (sel : List Nat) : List Ev :=
  store.filter (fun e => !e.processed && e.processing && sel.contains e.id)

/-- Induction invariant of the collapse fold: `m` is the dedupe map after
the fold has consumed the claim-ordered prefix `seen`.  It packages: the map
holds at most one entry per key; every seen key is represented; every entry
occurs in `seen` and strictly dominates every later same-key occurrence; and
every entry weakly dominates every same-key occurrence. -/
def LatestInv (seen m : List Ev) : Prop :=
  (m.map eventKey).Nodup ∧
  (∀ f ∈ seen, eventKey f ∈ m.map eventKey) ∧
  (∀ e ∈ m, ∃ s1 s2, seen = s1 ++ e :: s2 ∧
    ∀ f ∈ s2, eventKey f = eventKey e → f.createdAt < e.createdAt) ∧
  (∀ e ∈ m, ∀ f ∈ seen, eventKey f = eventKey e → f.createdAt ≤ e.createdAt)

/-- A single pending event, used as a concrete claim-race input. -/
def raceEv : Ev :=
  { id := 7, uid := "u", type := .comment, projectId := "p",
    payload := .comment "alice" "hey", createdAt := 0,
    processed := false, processing := false, skipped := none }

/-- A claimed comment event (the older duplicate of `c2e2`). -/
def c2e1 : Ev :=
  { id := 1, uid := "u", type := .comment, projectId := "proj1",
    payload := .comment "a" "hi", createdAt := 1,
    processed := false, processing := true, skipped := none }

/-- A claimed comment event on the same `(type, projectId)` key as `c2e1`,
with a later `createdAt`. -/
def c2e2 : Ev :=
  { id := 2, uid := "u", type := .comment, projectId := "proj1",
    payload := .comment "b" "yo", createdAt := 2,
    processed := false, processing := true, skipped := none }

/-- The claimed status event of the worked dedupe example (`t = 3`). -/
def c4e3 : Ev :=
  { id := 3, uid := "u", type := .status, projectId := "proj1",
    payload := .status "T" "todo" "done", createdAt := 3,
    processed := false, processing := true, skipped := none }

/-! ### Helper lemmas about the collapse map -/

/-- `Map.set` with a key already present keeps the key list unchanged. -/
theorem mapSet_map_eventKey {m : List Ev} {k : NType × String} {d : Ev}
    (hd : eventKey d = k) (hk : k ∈ m.map eventKey) :
    (mapSet m k d).map eventKey = m.map eventKey := by
  induction m with
  | nil => simp at hk
  | cons p rest ih =>
    by_cases hp : eventKey p = k
    · simp [mapSet, hp, hd]
    · have hk' : k ∈ rest.map eventKey := by
        rcases List.mem_map.mp hk with ⟨q, hq, hqk⟩
        rcases List.mem_cons.mp hq with rfl | hq
        · exact absurd hqk hp
        · exact List.mem_map.mpr ⟨q, hq, hqk⟩
      simp only [mapSet, if_neg hp, List.map_cons]
      rw [ih hk']

/-- Under distinct keys, every entry of `Map.set m k d` is either `d` or an
old entry whose key differs from `k`. -/
theorem mem_mapSet {m : List Ev} {k : NType × String} {d e : Ev}
    (hnd : (m.map eventKey).Nodup) (hdk : eventKey d = k)
    (he : e ∈ mapSet m k d) : e = d ∨ (e ∈ m ∧ eventKey e ≠ k) := by
  induction m with
  | nil =>
    simp [mapSet] at he
    exact Or.inl he
  | cons p rest ih =>
    simp only [List.map_cons, List.nodup_cons] at hnd
    by_cases hp : eventKey p = k
    · rw [mapSet, if_pos hp] at he
      rcases List.mem_cons.mp he with rfl | he
      · exact Or.inl rfl
      · refine Or.inr ⟨List.mem_cons_of_mem p he, ?_⟩
        intro hek
        exact hnd.1 (hp ▸ hek ▸ List.mem_map.mpr ⟨e, he, rfl⟩)
    · rw [mapSet, if_neg hp] at he
      rcases List.mem_cons.mp he with rfl | he
      · exact Or.inr ⟨List.mem_cons_self _ _, hp⟩
      · rcases ih hnd.2 he with h | ⟨hm, hek⟩
        · exact Or.inl h
        · exact Or.inr ⟨List.mem_cons_of_mem p hm, hek⟩

/-- One collapse iteration preserves the fold invariant. -/
theorem latestInv_step {seen m : List Ev} (d : Ev) (h : LatestInv seen m) :
    LatestInv (seen ++ [d]) (latestStep m d) := by
  obtain ⟨hnd, hcov, hsplit, hmax⟩ := h
  cases hfind : m.find? (fun p => eventKey p == eventKey d) with
  | none =>
    have hstep : latestStep m d = m ++ [d] := by
      unfold latestStep
      rw [hfind]
    rw [hstep]
    have hno : ∀ p ∈ m, eventKey p ≠ eventKey d := by
      intro p hp
      have := List.find?_eq_none.mp hfind p hp
      simpa using this
    have hkd : eventKey d ∉ m.map eventKey := by
      intro hmem
      obtain ⟨p, hp, hpk⟩ := List.mem_map.mp hmem
      exact hno p hp hpk
    refine ⟨?_, ?_, ?_, ?_⟩
    · rw [List.map_append]
      rw [List.nodup_append]
      refine ⟨hnd, by simp, ?_⟩
      intro a ha hb
      simp at hb
      exact hkd (hb ▸ ha)
    · intro f hf
      rw [List.map_append, List.mem_append]
      rcases List.mem_append.mp hf with hfs | hfd
      · exact Or.inl (hcov f hfs)
      · simp at hfd
        subst hfd
        exact Or.inr (by simp)
    · intro e he
      rcases List.mem_append.mp he with hem | hed
      · obtain ⟨s1, s2, hseen, hs2⟩ := hsplit e hem
        refine ⟨s1, s2 ++ [d], by rw [hseen]; simp, ?_⟩
        intro f hf hk
        rcases List.mem_append.mp hf with hfs | hfd
        · exact hs2 f hfs hk
        · simp at hfd
          subst hfd
          exact absurd hk.symm (hno e hem)
      · simp at hed
        subst hed
        exact ⟨seen, [], by simp, by simp⟩
    · intro e he f hf hk
      rcases List.mem_append.mp he with hem | hed
      · rcases List.mem_append.mp hf with hfs | hfd
        · exact hmax e hem f hfs hk
        · simp at hfd
          subst hfd
          exact absurd hk.symm (hno e hem)
      · simp at hed
        subst hed
        rcases List.mem_append.mp hf with hfs | hfd
        · exact absurd (hk ▸ hcov f hfs) hkd
        · simp at hfd
          subst hfd
          exact le_refl _
  | some prev =>
    have hprevm : prev ∈ m := List.mem_of_find?_eq_some hfind
    have hprevk : eventKey prev = eventKey d := by
      have := List.find?_some hfind
      simpa using this
    by_cases hle : prev.createdAt ≤ d.createdAt
    · have hstep : latestStep m d = mapSet m (eventKey d) d := by
        unfold latestStep
        rw [hfind]
        exact if_pos hle
      rw [hstep]
      have hkmem : eventKey d ∈ m.map eventKey := List.mem_map.mpr ⟨prev, hprevm, hprevk⟩
      have hkeys : (mapSet m (eventKey d) d).map eventKey = m.map eventKey :=
        mapSet_map_eventKey rfl hkmem
      have hmem : ∀ e ∈ mapSet m (eventKey d) d, e = d ∨ (e ∈ m ∧ eventKey e ≠ eventKey d) :=
        fun e he => mem_mapSet hnd rfl he
      refine ⟨hkeys ▸ hnd, ?_, ?_, ?_⟩
      · intro f hf
        rw [hkeys]
        rcases List.mem_append.mp hf with hfs | hfd
        · exact hcov f hfs
        · simp at hfd
          subst hfd
          exact hkmem
      · intro e he
        rcases hmem e he with rfl | ⟨hem, hek⟩
        · exact ⟨seen, [], by simp, by simp⟩
        · obtain ⟨s1, s2, hseen, hs2⟩ := hsplit e hem
          refine ⟨s1, s2 ++ [d], by rw [hseen]; simp, ?_⟩
          intro f hf hk
          rcases List.mem_append.mp hf with hfs | hfd
          · exact hs2 f hfs hk
          · simp at hfd
            subst hfd
            exact absurd hk.symm hek
      · intro e he f hf hk
        rcases hmem e he with rfl | ⟨hem, hek⟩
        · rcases List.mem_append.mp hf with hfs | hfd
          · exact (hmax prev hprevm f hfs (hk.trans hprevk.symm)).trans hle
          · simp at hfd
            subst hfd
            exact le_refl _
        · rcases List.mem_append.mp hf with hfs | hfd
          · exact hmax e hem f hfs hk
          · simp at hfd
            subst hfd
            exact absurd hk.symm hek
    · have hstep : latestStep m d = m := by
        unfold latestStep
        rw [hfind]
        exact if_neg hle
      rw [hstep]
      have hlt : d.createdAt < prev.createdAt := Nat.lt_of_not_le hle
      refine ⟨hnd, ?_, ?_, ?_⟩
      · intro f hf
        rcases List.mem_append.mp hf with hfs | hfd
        · exact hcov f hfs
        · simp at hfd
          subst hfd
          exact List.mem_map.mpr ⟨prev, hprevm, hprevk⟩
      · intro e he
        obtain ⟨s1, s2, hseen, hs2⟩ := hsplit e he
        refine ⟨s1, s2 ++ [d], by rw [hseen]; simp, ?_⟩
        intro f hf hk
        rcases List.mem_append.mp hf with hfs | hfd
        · exact hs2 f hfs hk
        · simp at hfd
          subst hfd
          have he_eq : e = prev :=
            List.inj_on_of_nodup_map hnd he hprevm (hk ▸ hprevk).symm
          exact he_eq ▸ hlt
      · intro e he f hf hk
        rcases List.mem_append.mp hf with hfs | hfd
        · exact hmax e he f hfs hk
        · simp at hfd
          subst hfd
          have he_eq : e = prev :=
            List.inj_on_of_nodup_map hnd he hprevm (hk ▸ hprevk).symm
          exact Nat.le_of_lt (he_eq ▸ hlt)

/-- The collapse fold preserves the invariant along any suffix. -/
theorem latestInv_foldl (l : List Ev) : ∀ seen m, LatestInv seen m →
    LatestInv (seen ++ l) (l.foldl latestStep m) := by
  induction l with
  | nil =>
    intro seen m h
    simpa using h
  | cons d rest ih =>
    intro seen m h
    have h2 := ih (seen ++ [d]) (latestStep m d) (latestInv_step d h)
    simpa [List.append_assoc] using h2

/-- The fold invariant holds of `latestByKey` itself. -/
theorem latestByKey_inv (l : List Ev) : LatestInv l (latestByKey l) := by
  have h0 : LatestInv ([] : List Ev) [] := ⟨by simp, by simp, by simp, by simp⟩
  have := latestInv_foldl l [] [] h0
  simpa [latestByKey] using this

/-- On input with pairwise-distinct keys the collapse fold copies its input. -/
theorem foldl_latestStep_of_nodup_keys : ∀ (xs m : List Ev),
    ((m ++ xs).map eventKey).Nodup → xs.foldl latestStep m = m ++ xs := by
  intro xs
  induction xs with
  | nil =>
    intro m _
    simp
  | cons x rest ih =>
    intro m h
    have hx : eventKey x ∉ m.map eventKey := by
      rw [List.map_append, List.nodup_append] at h
      intro hmem
      exact h.2.2 hmem (by simp)
    have hfind : m.find? (fun p => eventKey p == eventKey x) = none := by
      apply List.find?_eq_none.mpr
      intro p hp
      simp only [beq_iff_eq, decide_eq_true_eq]
      intro hpk
      exact hx (List.mem_map.mpr ⟨p, hp, hpk⟩)
    show rest.foldl latestStep (latestStep m x) = m ++ x :: rest
    rw [latestStep, hfind]
    have := ih (m ++ [x]) (by simpa [List.append_assoc] using h)
    simpa [List.append_assoc] using this

/-! ### Helper lemmas about the claim query -/

/-- Membership in the claim selection implies membership in the store and
the query predicate. -/
theorem mem_claimSelection {store : List Ev} {cutoff : Nat} {e : Ev}
    (he : e ∈ claimSelection store cutoff) :
    e ∈ store ∧ e.processed = false ∧ e.processing = false ∧ e.createdAt ≤ cutoff := by
  have h1 : e ∈ (store.filter (pendingEligible cutoff)).mergeSort byCreatedAt :=
    List.Sublist.mem he (List.take_sublist _ _)
  have h2 : e ∈ store.filter (pendingEligible cutoff) :=
    (List.mergeSort_perm _ _).mem_iff.mp h1
  obtain ⟨hs, hp⟩ := List.mem_filter.mp h2
  have hp2 : (e.processed = false ∧ e.processing = false) ∧ e.createdAt ≤ cutoff := by
    simpa [pendingEligible, Bool.and_eq_true, Bool.not_eq_true'] using hp
  exact ⟨hs, hp2.1.1, hp2.1.2, hp2.2⟩

/-! ### Claim theorems -/

/-- Claim C9: the collapse step is idempotent — running `latestByKey` on its
own output yields that output unchanged. -/
theorem c9_collapse_idempotent (l : List Ev) :
    latestByKey (latestByKey l) = latestByKey l := by
  have hnd : ((latestByKey l).map eventKey).Nodup := (latestByKey_inv l).1
  have h := foldl_latestStep_of_nodup_keys (latestByKey l) [] (by simpa using hnd)
  simpa [latestByKey] using h

/-- Claim C4: the collapse step keeps exactly one event per
`(kind, subjectId)` key — every input key is represented exactly once, each
kept event is an input event carrying the greatest `createdAt` for its key,
with `createdAt` ties broken in favor of the event later in claim order —
and on the worked example `[{comment, proj1, t=1}, {comment, proj1, t=2},
{status, proj1, t=3}]` the digest has exactly the two lines for the `t=2`
comment and the `t=3` status change. -/
theorem c4_collapse_keeps_latest_per_key :
    (∀ l : List Ev, ((latestByKey l).map eventKey).Nodup) ∧
    (∀ l : List Ev, ∀ f ∈ l, ∃ e ∈ latestByKey l, eventKey e = eventKey f) ∧
    (∀ l : List Ev, ∀ e ∈ latestByKey l,
        (∀ f ∈ l, eventKey f = eventKey e → f.createdAt ≤ e.createdAt) ∧
        ∃ l1 l2, l = l1 ++ e :: l2 ∧
          ∀ f ∈ l2, eventKey f = eventKey e → f.createdAt < e.createdAt) ∧
    latestByKey [c2e1, c2e2, c4e3] = [c2e2, c4e3] ∧
    (digestTextLines (fun _ => none) (latestByKey [c2e1, c2e2, c4e3])).length = 2 := by
  refine ⟨?_, ?_, ?_, ?_, ?_⟩
  · intro l
    exact (latestByKey_inv l).1
  · intro l f hf
    obtain ⟨e, he, hk⟩ := List.mem_map.mp ((latestByKey_inv l).2.1 f hf)
    exact ⟨e, he, hk⟩
  · intro l e he
    exact ⟨fun f hf hk => (latestByKey_inv l).2.2.2 e he f hf hk,
      (latestByKey_inv l).2.2.1 e he⟩
  · decide
  · decide

/-- Witness for C4 at the worked example: the kept `t=2` comment dominates
the dropped `t=1` duplicate on the same key. -/
theorem c4_witness : c2e1.createdAt ≤ c2e2.createdAt :=
  (c4_collapse_keeps_latest_per_key.2.2.1 [c2e1, c2e2, c4e3] c2e2 (by decide)).1
    c2e1 (by decide) (by decide)

/-- Claim C5: the claim step selects exactly the events with
`processed = false`, claim flag unset and `createdAt ≤ now - cutoff`
(cutoff two minutes), in ascending `createdAt` order, limited to the batch
size 500 (so the query is exhaustive whenever at most 500 events qualify),
sets the claim flag on the selected set, and an empty selection leaves the
store unchanged — the step is a total function, not an error. -/
theorem c5_claim_step :
    (∀ store nowMs, ∀ e ∈ claimSelection store (digestCutoff nowMs),
        e ∈ store ∧ e.processed = false ∧ e.processing = false ∧
          e.createdAt ≤ digestCutoff nowMs) ∧
    (∀ store cutoff,
        List.Pairwise (fun a b : Ev => a.createdAt ≤ b.createdAt)
          (claimSelection store cutoff)) ∧
    (∀ store cutoff, (claimSelection store cutoff).length ≤ 500) ∧
    (∀ store cutoff, (store.filter (pendingEligible cutoff)).length ≤ 500 →
        ∀ e ∈ store, pendingEligible cutoff e = true →
          e ∈ claimSelection store cutoff) ∧
    (∀ store cutoff, ∀ e ∈ claimSelection store cutoff,
        { e with processing := true } ∈ (claimBatch store cutoff).2) ∧
    (∀ store cutoff, claimSelection store cutoff = [] →
        (claimBatch store cutoff).2 = store) := by
  have htrans : ∀ a b c : Ev, byCreatedAt a b = true → byCreatedAt b c = true →
      byCreatedAt a c = true := by
    intro a b c hab hbc
    simp only [byCreatedAt, decide_eq_true_eq] at hab hbc ⊢
    omega
  have htotal : ∀ a b : Ev, (byCreatedAt a b || byCreatedAt b a) = true := by
    intro a b
    simp only [byCreatedAt, Bool.or_eq_true, decide_eq_true_eq]
    omega
  refine ⟨?_, ?_, ?_, ?_, ?_, ?_⟩
  · intro store nowMs e he
    exact mem_claimSelection he
  · intro store cutoff
    have hp := List.sorted_mergeSort htrans htotal (store.filter (pendingEligible cutoff))
    have hp2 := List.Pairwise.sublist (List.take_sublist 500 _) hp
    exact hp2.imp (by intro a b hab; simpa [byCreatedAt] using hab)
  · intro store cutoff
    show ((((store.filter (pendingEligible cutoff)).mergeSort byCreatedAt)).take 500).length ≤ 500
    rw [List.length_take]
    exact inf_le_left
  · intro store cutoff hlen e hes hpe
    have h1 : e ∈ store.filter (pendingEligible cutoff) := List.mem_filter.mpr ⟨hes, hpe⟩
    have h2 : e ∈ (store.filter (pendingEligible cutoff)).mergeSort byCreatedAt :=
      (List.mergeSort_perm _ _).mem_iff.mpr h1
    have h3 : ((store.filter (pendingEligible cutoff)).mergeSort byCreatedAt).length ≤ 500 := by
      rw [List.length_mergeSort]
      exact hlen
    show e ∈ (((store.filter (pendingEligible cutoff)).mergeSort byCreatedAt)).take 500
    rw [List.take_of_length_le h3]
    exact h2
  · intro store cutoff e he
    have hes := (mem_claimSelection he).1
    have hid : e.id ∈ (claimSelection store cutoff).map (·.id) :=
      List.mem_map.mpr ⟨e, he, rfl⟩
    show _ ∈ applyClaim store ((claimSelection store cutoff).map (·.id))
    exact List.mem_map.mpr ⟨e, hes, by simp [hid]⟩
  · intro store cutoff h
    show applyClaim store ((claimSelection store cutoff).map (·.id)) = store
    rw [h]
    simp [applyClaim]

/-- Witness for C5: on a one-event store the claim query selects the
pending event, which therefore satisfies the query predicate. -/
theorem c5_witness :
    raceEv ∈ [raceEv] ∧ raceEv.processed = false ∧ raceEv.processing = false ∧
      raceEv.createdAt ≤ digestCutoff 1000000 :=
  c5_claim_step.1 [raceEv] 1000000 raceEv
    (c5_claim_step.2.2.2.1 [raceEv] (digestCutoff 1000000) (by decide) raceEv
      (by decide) (by decide))

/-- Claim C7: for a recipient with no destination address the run finalizes
every event of the claimed batch with `processed = true` and the skip
annotation, and sends nothing; processed events are terminal, since the
claim query never selects a processed event. -/
theorem c7_no_address_terminal :
    (∀ docs lastSentAt nowMs,
        (processUser docs none lastSentAt nowMs).outcome = Outcome.skippedNoEmail ∧
        ∀ d ∈ (processUser docs none lastSentAt nowMs).docs,
          d.processed = true ∧ d.processing = false ∧ d.skipped = some "no-email") ∧
    (∀ store cutoff, ∀ e ∈ claimSelection store cutoff, e.processed = false) := by
  constructor
  · intro docs lastSentAt nowMs
    constructor
    · rfl
    · intro d hd
      simp only [processUser, jsTruthy, Bool.not_false, if_pos] at hd
      obtain ⟨a, ha, rfl⟩ := List.mem_map.mp hd
      exact ⟨rfl, rfl, rfl⟩
  · intro store cutoff e he
    exact (mem_claimSelection he).2.1

/-- Witness for C7 at a one-event batch without an address. -/
theorem c7_witness :
    ({ c2e1 with processed := true, processing := false, skipped := some "no-email" } : Ev).processed = true ∧
    ({ c2e1 with processed := true, processing := false, skipped := some "no-email" } : Ev).processing = false ∧
    ({ c2e1 with processed := true, processing := false, skipped := some "no-email" } : Ev).skipped = some "no-email" :=
  (c7_no_address_terminal.1 [c2e1] none 0).2
    { c2e1 with processed := true, processing := false, skipped := some "no-email" }
    (by decide)

/-- Claim C6 (code bug): the release and finalize commits are blind
`userBatch.update` calls with no field precondition (the
`processing === true` check happens only once at reload time), so an event
CAN transition to `processed = true` while `claimed = false`.  The
violating trace is reachable through the double-claim race of C1: event 7
is enqueued (starting `processed = false, processing = false`, as the claim
states) and claimed by two overlapping runs; run A is rate-limit suppressed
and releases it (`processing := false`); run B then sends and its blind
finalize commit sets `processed := true` on the event while it is
unclaimed — exactly the transition the claim says never happens. -/
theorem c6_blind_finalize_processes_unclaimed :
    PipeStep [] [raceEv] ∧
    PipeStep [raceEv] [{ raceEv with processing := true }] ∧
    PipeStep [{ raceEv with processing := true }] [raceEv] ∧
    PipeStep [raceEv] [{ raceEv with processed := true, processing := false }] ∧
    raceEv.processed = false ∧ raceEv.processing = false ∧
    ({ raceEv with processed := true, processing := false } : Ev).processed = true := by
  refine ⟨?_, ?_, ?_, ?_, rfl, rfl, rfl⟩
  · exact PipeStep.stepEnqueue [] 7 "u" .comment "p" (.comment "alice" "hey") 0
  · have hsel : claimSelection [raceEv] 120000 = [raceEv] := by
      simp [claimSelection, pendingEligible, raceEv, List.mergeSort_singleton]
    have h2 : (claimBatch [raceEv] 120000).2 = [{ raceEv with processing := true }] := by
      show applyClaim [raceEv] ((claimSelection [raceEv] 120000).map (·.id)) = _
      rw [hsel]
      decide
    exact h2 ▸ PipeStep.stepClaim [raceEv] 120000
  · exact PipeStep.stepRelease [{ raceEv with processing := true }] [7]
  · exact PipeStep.stepFinalizeSend [raceEv] [7]

/-- Claim C8: with no stored preference document the resolver returns every
kind enabled with the periodic (`digest-15m`) cadence, and when the stored
preferences disable a kind, recording an event of that kind is a no-op —
the trigger writes nothing and raises no error. -/
theorem c8_prefs_default_and_disabled_noop :
    getPrefs none = { onComment := true, onStatusChange := true, mode := .digest15m } ∧
    (∀ uid projectId stored authorUid author text id now,
        (getPrefs stored).onComment = false →
        queueOnNewComment uid projectId stored authorUid author text id now = none) ∧
    (∀ uid projectId stored (before after : ProjectDoc) id now,
        (getPrefs stored).onStatusChange = false →
        queueOnProjectStatusChange uid projectId stored before after id now = none) := by
  refine ⟨rfl, ?_, ?_⟩
  · intro uid projectId stored authorUid author text id now hoff
    simp [queueOnNewComment, hoff]
  · intro uid projectId stored before after id now hoff
    simp [queueOnProjectStatusChange, hoff]

/-- Witness for C8: a stored document with `onComment: false` suppresses a
comment recording. -/
theorem c8_witness :
    queueOnNewComment "owner" "proj" (some { onComment := some false, onStatusChange := none, mode := none }) (some "v") (some "v") (some "hi") 1 0 = none :=
  c8_prefs_default_and_disabled_noop.2.1 "owner" "proj"
    (some { onComment := some false, onStatusChange := none, mode := none })
    (some "v") (some "v") (some "hi") 1 0 (by decide)

/-- Claim C10: self-caused events are never recorded — a comment whose
`authorUid` equals the project owner's (non-empty) uid, or a status change
whose `updatedBy` equals the owner's uid, inserts no event record. -/
theorem c10_self_events_not_recorded :
    (∀ uid projectId stored author text id now, uid ≠ "" →
        queueOnNewComment uid projectId stored (some uid) author text id now = none) ∧
    (∀ uid projectId stored (before after : ProjectDoc) id now, uid ≠ "" →
        after.updatedBy = some uid →
        queueOnProjectStatusChange uid projectId stored before after id now = none) := by
  constructor
  · intro uid projectId stored author text id now hne
    simp [queueOnNewComment, jsTruthy, hne]
  · intro uid projectId stored before after id now hne hby
    simp [queueOnProjectStatusChange, jsTruthy, hby, hne]

/-- Witness for C10: the owner commenting on their own project queues
nothing. -/
theorem c10_witness :
    queueOnNewComment "owner" "proj" none (some "owner") (some "owner") (some "mine") 1 0 = none :=
  c10_self_events_not_recorded.1 "owner" "proj" none (some "owner") (some "mine") 1 0
    (by decide)

/-- Claim C1 (code bug): the claim step is a read followed by a blind batch
update with no precondition, so two overlapping invocations that both run
the query before either commit both claim the same pending event — here
both invocations claim event 7, and after both commits the reload check
(`processing === true`, `processed === false`) passes for both, so both
proceed to send it.  This contradicts the claimed exactly-one-claim
guarantee. -/
theorem c1_double_claim_bug :
    (overlappingClaims [raceEv] 120000).claimedA = [7] ∧
    (overlappingClaims [raceEv] 120000).claimedB = [7] ∧
    reloadedBatch (overlappingClaims [raceEv] 120000).finalStore
        (overlappingClaims [raceEv] 120000).claimedA = [{ raceEv with processing := true }] ∧
    reloadedBatch (overlappingClaims [raceEv] 120000).finalStore
        (overlappingClaims [raceEv] 120000).claimedB = [{ raceEv with processing := true }] := by
  have hsel : claimSelection [raceEv] 120000 = [raceEv] := by
    simp [claimSelection, pendingEligible, raceEv, List.mergeSort_singleton]
  refine ⟨?_, ?_, ?_, ?_⟩ <;>
  · simp only [overlappingClaims, hsel]
    decide

/-- Claim C2 (code bug): after a successful transport send the run marks
only the deduplicated `finalDocs` processed (`finalDocs.forEach`, not
`docs.forEach`), so the older duplicate `c2e1` of the claimed batch is left
`processed = false` and still claimed, even though `lastSentAt` is updated
to the run time — contradicting the claim that every claimed batch event,
including duplicates dropped from the rendered message, is marked
processed. -/
theorem c2_success_leaves_duplicate_unprocessed :
    (processUser [c2e1, c2e2] (some "client@example.com") none 1000000).outcome = Outcome.sent ∧
    (processUser [c2e1, c2e2] (some "client@example.com") none 1000000).lastSentAt = some 1000000 ∧
    (processUser [c2e1, c2e2] (some "client@example.com") none 1000000).docs =
      [c2e1, { c2e2 with processed := true, processing := false }] ∧
    c2e1.processed = false ∧ c2e1.processing = true := by
  decide

/-- Claim C3 (code bug): a rate-limited run is suppressed and sends nothing,
but it releases only the deduplicated `finalDocs` (`finalDocs.forEach`, not
`docs.forEach`), so the older duplicate `c2e1` of the claimed batch stays
claimed (`processing = true`) — contradicting the claim that every event of
the batch returns to the unclaimed state for a future run to re-batch. -/
theorem c3_suppression_releases_only_deduped :
    rateLimited (some 700000) 1000000 = true ∧
    (processUser [c2e1, c2e2] (some "client@example.com") (some 700000) 1000000).outcome = Outcome.suppressed ∧
    (processUser [c2e1, c2e2] (some "client@example.com") (some 700000) 1000000).docs =
      [c2e1, { c2e2 with processing := false }] ∧
    c2e1.processing = true ∧ c2e1.processed = false := by
  decide

end ClientDashboard
